import Mathlib

/-!
Verification of the core of `largest-file-finder` (src/src/main.rs): the
bounded top-K selector over `SizedPath` records, the `Matcher`, the query
expression engine (lexer/parser/evaluator) and the size/regex literal
grammars.

Modelling conventions:
* `u64` values are modelled as `Nat`; where the Rust code can overflow
  (`parse::<u64>`, `checked_mul`) the bound `2 ^ 64` is checked explicitly.
* Rust `String`/`PathBuf` are modelled as Lean `String`; `PathBuf`
  comparison on Unix is lexicographic byte comparison of the UTF-8
  encoding, which coincides with Lean's lexicographic order on the
  character list (UTF-8 is order preserving on code points).
* `BinaryHeap<Reverse<SizedPath>>` is a priority queue exposing the
  minimum under `SizedPath`'s order.  It is modelled by its abstract
  state: a descending sorted list, where `push` is ordered insertion,
  and `peek`/`pop` read/remove the last (minimum) element.  Ties in the
  order hold only between equal values (see `SizedPath.cmp_eq_iff`), so
  the multiset behaviour of the real heap is captured exactly.
* compiled regexes (the external `regex` crate) are abstract: a pattern
  string together with an opaque match function `String → Bool`.
-/

/-- Record kept by the selector: `struct SizedPath { size: u64, path: PathBuf }`
(main.rs lines 68-72). -/
structure SizedPath where
  size : Nat
  path : String
deriving DecidableEq, Repr

/-- Comparator on `u64` (`self.size.cmp(&other.size)`). -/
def natCmp (a b : Nat) : Ordering :=
  if a < b then .lt else if a = b then .eq else .gt

/-- Lexicographic comparison of character lists: elementwise, then by
length.  This is `PathBuf::cmp` (byte-wise lexicographic comparison of
the UTF-8 encoding, which is order preserving on code points). -/
def charListCmp : List Char → List Char → Ordering
  | [], [] => .eq
  | [], _ :: _ => .lt
  | _ :: _, [] => .gt
  | a :: as, b :: bs =>
    if a < b then .lt else if b < a then .gt else charListCmp as bs

/-- Comparator on paths (`PathBuf::cmp`, lexicographic). -/
def strCmp (a b : String) : Ordering :=
  charListCmp a.data b.data

/-- The `impl Ord for SizedPath` comparator (main.rs lines 141-151):
size first, and for equal sizes the path comparison is reversed so that
the lexicographically smaller path is the greater element. -/
def SizedPath.cmp (a b : SizedPath) : Ordering :=
  (natCmp a.size b.size).then (strCmp b.path a.path)

/-- Eviction order as written in the spec (section 4.7): a candidate
outranks another when its size is strictly larger, or the sizes are
equal and its path is lexicographically smaller. -/
def outranks (c m : SizedPath) : Prop :=
  m.size < c.size ∨ (c.size = m.size ∧ c.path < m.path)

/-- Reflexive order used for the descending heap/drain order:
`spGE a b` says `a` is ranked at least as high as `b`. -/
def spGE (a b : SizedPath) : Prop := SizedPath.cmp a b ≠ .lt

instance : DecidableRel spGE := by
  intro a b
  unfold spGE
  infer_instance

theorem cmpIte_eq_lt {α : Type} [LinearOrder α] {a b : α}
    [Decidable (a < b)] [Decidable (a = b)] :
    (if a < b then Ordering.lt else if a = b then Ordering.eq else Ordering.gt) = .lt
    ↔ a < b := by
  by_cases h : a < b
  · rw [if_pos h]; simp [h]
  · rw [if_neg h]
    by_cases h2 : a = b
    · rw [if_pos h2]
      constructor
      · intro hc; exact absurd hc (by decide)
      · intro hlt; exact absurd hlt h
    · rw [if_neg h2]
      constructor
      · intro hc; exact absurd hc (by decide)
      · intro hlt; exact absurd hlt h

theorem cmpIte_eq_eq {α : Type} [LinearOrder α] {a b : α}
    [Decidable (a < b)] [Decidable (a = b)] :
    (if a < b then Ordering.lt else if a = b then Ordering.eq else Ordering.gt) = .eq
    ↔ a = b := by
  by_cases h : a < b
  · rw [if_pos h]
    constructor
    · intro hc; exact absurd hc (by decide)
    · intro he; exact absurd (he ▸ h) (lt_irrefl b)
  · rw [if_neg h]
    by_cases h2 : a = b
    · rw [if_pos h2]; simp [h2]
    · rw [if_neg h2]
      constructor
      · intro hc; exact absurd hc (by decide)
      · intro he; exact absurd he h2

theorem cmpIte_eq_gt {α : Type} [LinearOrder α] {a b : α}
    [Decidable (a < b)] [Decidable (a = b)] :
    (if a < b then Ordering.lt else if a = b then Ordering.eq else Ordering.gt) = .gt
    ↔ b < a := by
  by_cases h : a < b
  · rw [if_pos h]
    constructor
    · intro hc; exact absurd hc (by decide)
    · intro hgt; exact absurd (lt_trans h hgt) (lt_irrefl a)
  · rw [if_neg h]
    by_cases h2 : a = b
    · rw [if_pos h2]
      constructor
      · intro hc; exact absurd hc (by decide)
      · intro hgt; exact absurd hgt (h2 ▸ lt_irrefl a)
    · rw [if_neg h2]
      constructor
      · intro _; exact lt_of_le_of_ne (le_of_not_lt h) (fun e => h2 e.symm)
      · intro _; rfl

theorem natCmp_eq_lt {a b : Nat} : natCmp a b = .lt ↔ a < b := cmpIte_eq_lt

theorem natCmp_eq_eq {a b : Nat} : natCmp a b = .eq ↔ a = b := cmpIte_eq_eq

theorem natCmp_eq_gt {a b : Nat} : natCmp a b = .gt ↔ b < a := cmpIte_eq_gt

theorem charListCmp_eq_eq :
    ∀ {as bs : List Char}, charListCmp as bs = .eq ↔ as = bs := by
  intro as
  induction as with
  | nil => intro bs; cases bs <;> simp [charListCmp]
  | cons a as IH =>
    intro bs
    cases bs with
    | nil => simp [charListCmp]
    | cons b bs =>
      simp only [charListCmp]
      by_cases h1 : a < b
      · rw [if_pos h1]
        constructor
        · intro hc; exact absurd hc (by decide)
        · intro he
          injection he with he1 he2
          exact absurd (he1 ▸ h1) (lt_irrefl b)
      · rw [if_neg h1]
        by_cases h2 : b < a
        · rw [if_pos h2]
          constructor
          · intro hc; exact absurd hc (by decide)
          · intro he
            injection he with he1 he2
            exact absurd (he1 ▸ h2) (lt_irrefl b)
        · rw [if_neg h2]
          have hab : a = b := le_antisymm (le_of_not_lt h2) (le_of_not_lt h1)
          subst hab
          rw [IH]
          simp

theorem charListCmp_eq_lt :
    ∀ {as bs : List Char}, charListCmp as bs = .lt ↔ as.lt bs := by
  intro as
  induction as with
  | nil =>
    intro bs
    cases bs with
    | nil =>
      simp only [charListCmp]
      constructor
      · intro hc; exact absurd hc (by decide)
      · intro hl; cases hl
    | cons b bs =>
      simp only [charListCmp]
      constructor
      · intro _; exact List.lt.nil b bs
      · intro _; trivial
  | cons a as IH =>
    intro bs
    cases bs with
    | nil =>
      simp only [charListCmp]
      constructor
      · intro hc; exact absurd hc (by decide)
      · intro hl; cases hl
    | cons b bs =>
      simp only [charListCmp]
      by_cases h1 : a < b
      · rw [if_pos h1]
        constructor
        · intro _; exact List.lt.head as bs h1
        · intro _; rfl
      · rw [if_neg h1]
        by_cases h2 : b < a
        · rw [if_pos h2]
          constructor
          · intro hc; exact absurd hc (by decide)
          · intro hl
            cases hl with
            | head _ _ hab => exact absurd hab h1
            | tail hab hba _ => exact absurd h2 hba
        · rw [if_neg h2]
          rw [IH]
          constructor
          · intro hl; exact List.lt.tail h1 h2 hl
          · intro hl
            cases hl with
            | head _ _ hab => exact absurd hab h1
            | tail _ _ htl => exact htl

theorem charListCmp_eq_gt :
    ∀ {as bs : List Char}, charListCmp as bs = .gt ↔ bs.lt as := by
  intro as
  induction as with
  | nil =>
    intro bs
    cases bs with
    | nil =>
      simp only [charListCmp]
      constructor
      · intro hc; exact absurd hc (by decide)
      · intro hl; cases hl
    | cons b bs =>
      simp only [charListCmp]
      constructor
      · intro hc; exact absurd hc (by decide)
      · intro hl; cases hl
  | cons a as IH =>
    intro bs
    cases bs with
    | nil =>
      simp only [charListCmp]
      constructor
      · intro _; exact List.lt.nil a as
      · intro _; trivial
    | cons b bs =>
      simp only [charListCmp]
      by_cases h1 : a < b
      · rw [if_pos h1]
        constructor
        · intro hc; exact absurd hc (by decide)
        · intro hl
          cases hl with
          | head _ _ hba => exact absurd (lt_trans h1 hba) (lt_irrefl a)
          | tail hba hab _ => exact absurd h1 hab
      · rw [if_neg h1]
        by_cases h2 : b < a
        · rw [if_pos h2]
          constructor
          · intro _; exact List.lt.head bs as h2
          · intro _; rfl
        · rw [if_neg h2]
          rw [IH]
          constructor
          · intro hl; exact List.lt.tail h2 h1 hl
          · intro hl
            cases hl with
            | head _ _ hba => exact absurd hba h2
            | tail _ _ htl => exact htl

theorem string_lt_data {a b : String} : a < b ↔ a.data < b.data :=
  String.lt_iff_toList_lt

theorem strCmp_eq_lt {a b : String} : strCmp a b = .lt ↔ a < b := by
  unfold strCmp
  rw [charListCmp_eq_lt, List.lt_iff_lex_lt]
  exact string_lt_data.symm

theorem strCmp_eq_eq {a b : String} : strCmp a b = .eq ↔ a = b := by
  unfold strCmp
  rw [charListCmp_eq_eq]
  constructor
  · intro h; cases a; cases b; simp_all
  · intro h; rw [h]

theorem strCmp_eq_gt {a b : String} : strCmp a b = .gt ↔ b < a := by
  unfold strCmp
  rw [charListCmp_eq_gt, List.lt_iff_lex_lt]
  exact string_lt_data.symm

theorem SizedPath.cmp_eq_gt {a b : SizedPath} :
    SizedPath.cmp a b = .gt ↔ b.size < a.size ∨ (a.size = b.size ∧ a.path < b.path) := by
  unfold SizedPath.cmp
  rw [Ordering.then_eq_gt, natCmp_eq_gt, natCmp_eq_eq, strCmp_eq_gt]

theorem SizedPath.cmp_eq_lt {a b : SizedPath} :
    SizedPath.cmp a b = .lt ↔ a.size < b.size ∨ (a.size = b.size ∧ b.path < a.path) := by
  unfold SizedPath.cmp
  rw [Ordering.then_eq_lt, natCmp_eq_lt, natCmp_eq_eq, strCmp_eq_lt]

/-- Equality in the eviction order holds only between equal records:
ties in the heap are between indistinguishable values. -/
theorem SizedPath.cmp_eq_eq {a b : SizedPath} :
    SizedPath.cmp a b = .eq ↔ a = b := by
  unfold SizedPath.cmp
  rw [Ordering.then_eq_eq, natCmp_eq_eq, strCmp_eq_eq]
  constructor
  · rintro ⟨h1, h2⟩
    cases a; cases b
    simp_all
  · intro h; simp [h]

theorem spGE_iff {a b : SizedPath} :
    spGE a b ↔ b.size < a.size ∨ (a.size = b.size ∧ a.path ≤ b.path) := by
  unfold spGE
  constructor
  · intro h
    rcases hc : SizedPath.cmp a b with _ | _ | _
    · exact absurd hc h
    · rcases SizedPath.cmp_eq_eq.mp hc with rfl
      exact Or.inr ⟨rfl, le_refl _⟩
    · rcases SizedPath.cmp_eq_gt.mp hc with h1 | ⟨h1, h2⟩
      · exact Or.inl h1
      · exact Or.inr ⟨h1, le_of_lt h2⟩
  · intro h hc
    rcases SizedPath.cmp_eq_lt.mp hc with h1 | ⟨h1, h2⟩
    · rcases h with h3 | ⟨h3, _⟩ <;> omega
    · rcases h with h3 | ⟨h3, h4⟩
      · omega
      · exact absurd h2 (not_lt_of_le h4)

theorem cmp_gt_iff_outranks {a b : SizedPath} :
    SizedPath.cmp a b = .gt ↔ outranks a b := SizedPath.cmp_eq_gt

instance : DecidableRel outranks := fun c m =>
  decidable_of_iff (SizedPath.cmp c m = .gt) cmp_gt_iff_outranks

theorem spGE_refl (a : SizedPath) : spGE a a := by
  rw [spGE_iff]; exact Or.inr ⟨rfl, le_refl _⟩

theorem spGE_total (a b : SizedPath) : spGE a b ∨ spGE b a := by
  rw [spGE_iff, spGE_iff]
  rcases Nat.lt_trichotomy a.size b.size with h | h | h
  · exact Or.inr (Or.inl h)
  · rcases le_total a.path b.path with h2 | h2
    · exact Or.inl (Or.inr ⟨h, h2⟩)
    · exact Or.inr (Or.inr ⟨h.symm, h2⟩)
  · exact Or.inl (Or.inl h)

theorem spGE_trans {a b c : SizedPath} (h1 : spGE a b) (h2 : spGE b c) : spGE a c := by
  rw [spGE_iff] at *
  rcases h1 with h1 | ⟨h1, h1p⟩ <;> rcases h2 with h2 | ⟨h2, h2p⟩
  · exact Or.inl (by omega)
  · exact Or.inl (by omega)
  · exact Or.inl (by omega)
  · exact Or.inr ⟨by omega, le_trans h1p h2p⟩

theorem spGE_antisymm {a b : SizedPath} (h1 : spGE a b) (h2 : spGE b a) : a = b := by
  rw [spGE_iff] at *
  have hsize : a.size = b.size := by
    rcases h1 with h | ⟨h, _⟩ <;> rcases h2 with h' | ⟨h', _⟩ <;> omega
  have hpath : a.path = b.path := by
    rcases h1 with h | ⟨_, hp1⟩
    · omega
    · rcases h2 with h' | ⟨_, hp2⟩
      · omega
      · exact le_antisymm hp1 hp2
  cases a; cases b; simp_all

instance : IsTotal SizedPath spGE := ⟨spGE_total⟩

instance : IsTrans SizedPath spGE := ⟨fun _ _ _ => spGE_trans⟩

instance : IsAntisymm SizedPath spGE := ⟨fun _ _ => spGE_antisymm⟩

instance : IsRefl SizedPath spGE := ⟨spGE_refl⟩

/-- A comparison that is not `Greater` means the other element is ranked
at least as high. -/
theorem cmp_ne_gt_iff {a b : SizedPath} : SizedPath.cmp a b ≠ .gt ↔ spGE b a := by
  constructor
  · intro h
    rcases hc : SizedPath.cmp a b with _ | _ | _
    · rw [spGE_iff]
      rcases SizedPath.cmp_eq_lt.mp hc with h1 | ⟨h1, h2⟩
      · exact Or.inl h1
      · exact Or.inr ⟨h1.symm, le_of_lt h2⟩
    · rcases SizedPath.cmp_eq_eq.mp hc with rfl
      exact spGE_refl a
    · exact absurd hc h
  · intro h hc
    rcases SizedPath.cmp_eq_gt.mp hc with h1 | ⟨h1, h2⟩ <;> rw [spGE_iff] at h
    · rcases h with h3 | ⟨h3, _⟩ <;> omega
    · rcases h with h3 | ⟨h3, h4⟩
      · omega
      · exact absurd h2 (not_lt_of_le h4)

/-- Push into the min-heap of kept candidates (`BinaryHeap::push`):
ordered insertion into the descending sorted model. -/
def heapPush (c : SizedPath) (h : List SizedPath) : List SizedPath :=
  List.orderedInsert spGE c h

/-- Peek at the minimum-ranked kept candidate
(`BinaryHeap<Reverse<_>>::peek`): the last element of the descending
sorted model. -/
def heapPeekMin (h : List SizedPath) : Option SizedPath :=
  h.getLast?

/-- Pop the minimum-ranked kept candidate (`BinaryHeap::pop`). -/
def heapPopMin (h : List SizedPath) : List SizedPath :=
  h.dropLast

/-- The streaming selection step `consider_candidate` (main.rs lines
423-436): insert while under capacity, otherwise replace the current
minimum exactly when the candidate compares `Greater` to it. -/
def consider_candidate (top_files : List SizedPath) (top_n : Nat)
    (candidate : SizedPath) : List SizedPath :=
  if top_files.length < top_n then
    heapPush candidate top_files
  else
    match heapPeekMin top_files with
    | some current_smallest =>
      if SizedPath.cmp candidate current_smallest = .gt then
        heapPush candidate (heapPopMin top_files)
      else
        top_files
    | none => top_files

/-- Feed a whole stream of accepted candidates through
`consider_candidate`, starting from the empty selector (the collection
loops in `scan_filesystem_and_collect` / `read_index_and_collect`). -/
def selectRun (top_n : Nat) (cs : List SizedPath) : List SizedPath :=
  cs.foldl (fun h c => consider_candidate h top_n c) []

/-- The final-sort comparator of `main` (main.rs line 231):
`b.size.cmp(&a.size).then_with(|| a.path.cmp(&b.path))` — size
descending, then path ascending. -/
def drainCmp (a b : SizedPath) : Ordering :=
  (natCmp b.size a.size).then (strCmp a.path b.path)

/-- The order in which `results.sort_by` leaves the drained list:
adjacent pairs never compare `Greater`. -/
def drainLE (a b : SizedPath) : Prop := drainCmp a b ≠ .gt

instance : DecidableRel drainLE := by
  intro a b
  unfold drainLE
  infer_instance

theorem drainLE_iff_spGE {a b : SizedPath} : drainLE a b ↔ spGE a b := by
  unfold drainLE drainCmp
  rw [spGE_iff]
  constructor
  · intro h
    by_contra hcon
    push_neg at hcon
    obtain ⟨h1, h2⟩ := hcon
    apply h
    rw [Ordering.then_eq_gt, natCmp_eq_gt, natCmp_eq_eq, strCmp_eq_gt]
    rcases Nat.lt_trichotomy a.size b.size with hs | hs | hs
    · exact Or.inl hs
    · exact Or.inr ⟨hs.symm, h2 hs⟩
    · exact absurd hs (not_lt_of_le h1)
  · intro h hgt
    rw [Ordering.then_eq_gt, natCmp_eq_gt, natCmp_eq_eq, strCmp_eq_gt] at hgt
    rcases hgt with h1 | ⟨h1, h2⟩
    · rcases h with h3 | ⟨h3, _⟩ <;> omega
    · rcases h with h3 | ⟨h3, h4⟩
      · omega
      · exact absurd h2 (not_lt_of_le h4)

theorem drainLE_eq_spGE : drainLE = spGE := by
  funext a b
  exact propext drainLE_iff_spGE

/-- The drain of `main` (lines 226-231): the heap contents sorted by the
final comparator.  `Vec::sort_by` returns the unique list sorted by this
antisymmetric total order that is a permutation of the input, which
insertion sort computes. -/
def drain_sorted (l : List SizedPath) : List SizedPath :=
  List.insertionSort drainLE l

theorem consider_of_lt {h : List SizedPath} {n : Nat} (c : SizedPath)
    (hlen : h.length < n) :
    consider_candidate h n c = heapPush c h := by
  unfold consider_candidate
  rw [if_pos hlen]

theorem consider_at_cap_gt {h : List SizedPath} {n : Nat} {c : SizedPath}
    (hlen : ¬ h.length < n) (hne : h ≠ [])
    (hgt : SizedPath.cmp c (h.getLast hne) = .gt) :
    consider_candidate h n c = heapPush c (heapPopMin h) := by
  unfold consider_candidate
  rw [if_neg hlen, heapPeekMin, List.getLast?_eq_getLast h hne]
  simp [hgt]

theorem consider_at_cap_ngt {h : List SizedPath} {n : Nat} {c : SizedPath}
    (hlen : ¬ h.length < n) (hne : h ≠ [])
    (hgt : SizedPath.cmp c (h.getLast hne) ≠ .gt) :
    consider_candidate h n c = h := by
  unfold consider_candidate
  rw [if_neg hlen, heapPeekMin, List.getLast?_eq_getLast h hne]
  simp [hgt]

theorem oi_cons_pos {c x : SizedPath} {t : List SizedPath} (h : spGE c x) :
    List.orderedInsert spGE c (x :: t) = c :: x :: t := by
  simp [List.orderedInsert, h]

theorem oi_cons_neg {c x : SizedPath} {t : List SizedPath} (h : ¬ spGE c x) :
    List.orderedInsert spGE c (x :: t) = x :: List.orderedInsert spGE c t := by
  simp [List.orderedInsert, h]

/-- In a descending sorted state every element ranks at least as high as
the last element: the last element is the heap minimum. -/
theorem sorted_ge_getLast :
    ∀ (h : List SizedPath), List.Sorted spGE h → ∀ (hne : h ≠ []),
    ∀ y ∈ h, spGE y (h.getLast hne) := by
  intro h
  induction h with
  | nil => intro _ hne; exact absurd rfl hne
  | cons x t IH =>
    intro hs hne y hy
    obtain ⟨hx, ht⟩ := List.sorted_cons.mp hs
    cases t with
    | nil =>
      rcases List.mem_singleton.mp hy with rfl
      rw [List.getLast_singleton]
      exact spGE_refl y
    | cons z t' =>
      rw [List.getLast_cons (by simp)]
      rcases List.mem_cons.mp hy with rfl | hy2
      · exact hx _ (List.getLast_mem _)
      · exact IH ht (by simp) y hy2

/-- Key step: on a descending sorted stream state, one `consider_candidate`
step on the first `n` elements agrees with taking the first `n` elements
after ordered insertion of the candidate. -/
theorem consider_take (c : SizedPath) :
    ∀ (S : List SizedPath), List.Sorted spGE S → ∀ n : Nat,
    consider_candidate (S.take n) n c = (List.orderedInsert spGE c S).take n := by
  intro S
  induction S with
  | nil =>
    intro _ n
    cases n with
    | zero => rfl
    | succ n' =>
      rw [List.take_nil, consider_of_lt c (by simp)]
      simp [heapPush, List.orderedInsert]
  | cons x S' IH =>
    intro hs n
    obtain ⟨hx, hs'⟩ := List.sorted_cons.mp hs
    have IH' := IH hs'
    by_cases hcx : spGE c x
    · rw [oi_cons_pos hcx]
      cases n with
      | zero => rfl
      | succ n' =>
        rw [List.take_succ_cons, List.take_succ_cons]
        by_cases hcap : S'.length < n'
        · have hK' : S'.take n' = S' := List.take_of_length_le (le_of_lt hcap)
          have hxx : (x :: S').take n' = x :: S' :=
            List.take_of_length_le (by simp; omega)
          rw [hK', hxx, consider_of_lt c (by simp; omega), heapPush, oi_cons_pos hcx]
        · have hK'len : (S'.take n').length = n' := by
            rw [List.length_take]; omega
          have hlen : ¬ (x :: S'.take n').length < n' + 1 := by simp [hK'len]
          have hsub : (x :: S'.take n').Sublist (x :: S') :=
            List.cons_sublist_cons.mpr (List.take_sublist n' S')
          have hsorted : List.Sorted spGE (x :: S'.take n') :=
            List.Pairwise.sublist hsub hs
          have hne : (x :: S'.take n') ≠ [] := by simp
          by_cases hgt : SizedPath.cmp c ((x :: S'.take n').getLast hne) = .gt
          · rw [consider_at_cap_gt hlen hne hgt]
            cases n' with
            | zero =>
              rw [List.take_zero, List.take_zero]
              rfl
            | succ m' =>
              have hK'ne : S'.take (m' + 1) ≠ [] := by
                intro he
                rw [he] at hK'len
                simp at hK'len
              rw [heapPopMin, List.dropLast_cons_of_ne_nil hK'ne, heapPush,
                oi_cons_pos hcx, List.take_succ_cons]
              have hdl : (S'.take (m' + 1)).dropLast = S'.take m' := by
                rw [List.dropLast_eq_take, hK'len, List.take_take]
                congr 1
                omega
              rw [hdl]
          · rw [consider_at_cap_ngt hlen hne hgt]
            -- here the candidate ties with the floor: everything is equal
            have hmc : spGE ((x :: S'.take n').getLast hne) c :=
              cmp_ne_gt_iff.mp hgt
            have hxm : spGE x ((x :: S'.take n').getLast hne) :=
              sorted_ge_getLast _ hsorted hne x (by simp)
            have hcxeq : c = x :=
              spGE_antisymm hcx (spGE_trans hxm hmc)
            have hallx : ∀ y ∈ x :: S'.take n', y = x := by
              intro y hy
              have h1 : spGE x y := by
                rcases List.mem_cons.mp hy with rfl | hy2
                · exact spGE_refl y
                · exact hx y (List.mem_of_mem_take hy2)
              have h2 : spGE y ((x :: S'.take n').getLast hne) :=
                sorted_ge_getLast _ hsorted hne y hy
              exact spGE_antisymm (spGE_trans h2 (spGE_trans hmc hcx)) h1
            have hrep : x :: S'.take n' = List.replicate (n' + 1) x :=
              List.eq_replicate_iff.mpr ⟨by simp [hK'len], hallx⟩
            subst hcxeq
            cases n' with
            | zero => rw [List.take_zero, List.take_zero]
            | succ m' =>
              rw [List.take_succ_cons]
              have h1 : S'.take (m' + 1) = List.replicate (m' + 1) c := by
                have h := hrep
                rw [List.replicate_succ] at h
                injection h with hhead htail
              have h2 : S'.take m' = List.replicate m' c := by
                have : S'.take m' = (S'.take (m' + 1)).take m' := by
                  rw [List.take_take]
                  congr 1
                  omega
                rw [this, h1, List.take_replicate]
                congr 1
                omega
              rw [h1, h2, List.replicate_succ]
    · rw [oi_cons_neg hcx]
      cases n with
      | zero => rfl
      | succ n' =>
        rw [List.take_succ_cons, List.take_succ_cons]
        by_cases hcap : S'.length < n'
        · have hK' : S'.take n' = S' := List.take_of_length_le (le_of_lt hcap)
          rw [hK', consider_of_lt c (by simp; omega), heapPush, oi_cons_neg hcx]
          have : (List.orderedInsert spGE c S').take n' = List.orderedInsert spGE c S' := by
            apply List.take_of_length_le
            have := (List.perm_orderedInsert spGE c S').length_eq
            simp at this
            omega
          rw [this]
        · have hK'len : (S'.take n').length = n' := by
            rw [List.length_take]; omega
          have hlen : ¬ (x :: S'.take n').length < n' + 1 := by simp [hK'len]
          have hne : (x :: S'.take n') ≠ [] := by simp
          rw [← IH' n']
          cases n' with
          | zero =>
            rw [List.take_zero] at *
            have hgt : SizedPath.cmp c ((x :: ([] : List SizedPath)).getLast hne) ≠ .gt := by
              rw [List.getLast_singleton]
              intro hg
              exact hcx (spGE_trans (spGE_refl c) (by
                rw [spGE_iff]
                rcases SizedPath.cmp_eq_gt.mp hg with h1 | ⟨h1, h2⟩
                · exact Or.inl h1
                · exact Or.inr ⟨h1, le_of_lt h2⟩))
            rw [consider_at_cap_ngt hlen hne hgt]
            rfl
          | succ m' =>
            have hK'ne : S'.take (m' + 1) ≠ [] := by
              intro he
              rw [he] at hK'len
              simp at hK'len
            have hlast : (x :: S'.take (m' + 1)).getLast hne
                = (S'.take (m' + 1)).getLast hK'ne := List.getLast_cons hK'ne
            have hlen' : ¬ (S'.take (m' + 1)).length < m' + 1 := by
              rw [hK'len]; omega
            by_cases hgt : SizedPath.cmp c ((S'.take (m' + 1)).getLast hK'ne) = .gt
            · rw [consider_at_cap_gt hlen hne (hlast ▸ hgt),
                consider_at_cap_gt hlen' hK'ne hgt]
              rw [heapPopMin, heapPopMin, List.dropLast_cons_of_ne_nil hK'ne,
                heapPush, heapPush, oi_cons_neg hcx]
            · rw [consider_at_cap_ngt hlen hne (hlast ▸ hgt),
                consider_at_cap_ngt hlen' hK'ne hgt]

instance : IsTotal SizedPath drainLE :=
  ⟨fun a b => (spGE_total a b).imp drainLE_iff_spGE.mpr drainLE_iff_spGE.mpr⟩

instance : IsTrans SizedPath drainLE :=
  ⟨fun _ _ _ h1 h2 => drainLE_iff_spGE.mpr
    (spGE_trans (drainLE_iff_spGE.mp h1) (drainLE_iff_spGE.mp h2))⟩

instance : IsAntisymm SizedPath drainLE :=
  ⟨fun _ _ h1 h2 => spGE_antisymm (drainLE_iff_spGE.mp h1) (drainLE_iff_spGE.mp h2)⟩

/-- Ordered insertion into the sorted permutation of a stream equals the
sorted permutation of the stream extended by one candidate. -/
theorem oi_snoc (c : SizedPath) (cs : List SizedPath) :
    List.orderedInsert spGE c (List.insertionSort spGE cs)
      = List.insertionSort spGE (cs ++ [c]) :=
  List.eq_of_perm_of_sorted
    (((List.perm_orderedInsert spGE c _).trans
      ((List.perm_insertionSort spGE cs).cons c)).trans
      ((List.perm_insertionSort spGE (cs ++ [c])).trans
        (List.perm_append_singleton c cs)).symm)
    (List.Sorted.orderedInsert c _ (List.sorted_insertionSort spGE cs))
    (List.sorted_insertionSort spGE _)

theorem selectRun_snoc (n : Nat) (cs : List SizedPath) (c : SizedPath) :
    selectRun n (cs ++ [c]) = consider_candidate (selectRun n cs) n c := by
  unfold selectRun
  rw [List.foldl_append]
  rfl

/-- Invariant of the streaming selection: after any stream, the selector
state is exactly the first `top_n` elements of the stream sorted in the
descending eviction order. -/
theorem selectRun_eq_take (n : Nat) (cs : List SizedPath) :
    selectRun n cs = (List.insertionSort spGE cs).take n := by
  induction cs using List.reverseRecOn with
  | nil => simp [selectRun, List.insertionSort]
  | append_singleton cs c IH =>
    rw [selectRun_snoc, IH, consider_take c _ (List.sorted_insertionSort spGE cs) n,
      oi_snoc]

/-- C1: `consider` inserts unconditionally while under capacity; at
capacity it evicts the current minimum and inserts exactly when the
candidate strictly outranks that minimum under the order "larger size is
greater, and for equal sizes the lexicographically smaller path is
greater", leaving the state unchanged otherwise; with `top_n = 1` and two
equal-sized candidates, the lexicographically smaller path is retained
regardless of arrival order. -/
theorem C1_consider_policy (n : Nat) (h : List SizedPath) (c : SizedPath)
    (hs : List.Sorted spGE h) :
    (h.length < n → (consider_candidate h n c).Perm (c :: h)) ∧
    (h.length = n → 0 < n → ∀ (hne : h ≠ []),
      (heapPeekMin h = some (h.getLast hne)) ∧
      (∀ y ∈ h, spGE y (h.getLast hne)) ∧
      (SizedPath.cmp c (h.getLast hne) = .gt ↔ outranks c (h.getLast hne)) ∧
      (outranks c (h.getLast hne) →
        (consider_candidate h n c).Perm (c :: h.dropLast)) ∧
      (¬ outranks c (h.getLast hne) → consider_candidate h n c = h)) ∧
    (∀ a b : SizedPath, a.size = b.size → a.path < b.path →
      selectRun 1 [a, b] = [a] ∧ selectRun 1 [b, a] = [a]) := by
  refine ⟨?_, ?_, ?_⟩
  · intro hlt
    rw [consider_of_lt c hlt]
    exact List.perm_orderedInsert spGE c h
  · intro hlenn hpos hne
    have hlen : ¬ h.length < n := by omega
    refine ⟨List.getLast?_eq_getLast h hne, sorted_ge_getLast h hs hne,
      cmp_gt_iff_outranks, ?_, ?_⟩
    · intro hout
      rw [consider_at_cap_gt hlen hne (cmp_gt_iff_outranks.mpr hout)]
      exact List.perm_orderedInsert spGE c _
    · intro hnout
      exact consider_at_cap_ngt hlen hne (fun hg => hnout (cmp_gt_iff_outranks.mp hg))
  · intro a b hsize hpath
    constructor
    · show consider_candidate (consider_candidate [] 1 a) 1 b = [a]
      rw [consider_of_lt a (by simp)]
      have h1 : heapPush a [] = [a] := rfl
      rw [h1]
      have hne : ([a] : List SizedPath) ≠ [] := by simp
      have hgt : SizedPath.cmp b (([a] : List SizedPath).getLast hne) ≠ .gt := by
        rw [List.getLast_singleton]
        intro hg
        rcases SizedPath.cmp_eq_gt.mp hg with hg1 | ⟨hg1, hg2⟩
        · omega
        · exact absurd (lt_trans hpath hg2) (lt_irrefl _)
      exact consider_at_cap_ngt (by simp) hne hgt
    · show consider_candidate (consider_candidate [] 1 b) 1 a = [a]
      rw [consider_of_lt b (by simp)]
      have h1 : heapPush b [] = [b] := rfl
      rw [h1]
      have hne : ([b] : List SizedPath) ≠ [] := by simp
      have hgt : SizedPath.cmp a (([b] : List SizedPath).getLast hne) = .gt := by
        rw [List.getLast_singleton, SizedPath.cmp_eq_gt]
        exact Or.inr ⟨hsize, hpath⟩
      rw [consider_at_cap_gt (by simp) hne hgt]
      rfl

theorem C1_witness :
    (consider_candidate [⟨10, "b"⟩] 1 ⟨10, "a"⟩).Perm
        (⟨10, "a"⟩ :: ([⟨10, "b"⟩] : List SizedPath).dropLast) ∧
    selectRun 1 [⟨10, "b"⟩, ⟨10, "a"⟩] = [⟨10, "a"⟩] := by
  constructor
  · exact ((C1_consider_policy 1 [⟨10, "b"⟩] ⟨10, "a"⟩ (by decide)).2.1 rfl
      (by decide) (by decide)).2.2.2.1 (by decide)
  · exact ((C1_consider_policy 1 [] ⟨1, "z"⟩ (by decide)).2.2
      ⟨10, "a"⟩ ⟨10, "b"⟩ rfl (string_lt_data.mpr (by decide))).2

/-- C2: the drained, sorted result of a run is invariant under
permutation of the candidate stream — the selection is independent of
input order. -/
theorem C2_order_independent (n : Nat) (cs cs' : List SizedPath)
    (h : cs.Perm cs') :
    drain_sorted (selectRun n cs) = drain_sorted (selectRun n cs') := by
  have hsort : List.insertionSort spGE cs = List.insertionSort spGE cs' :=
    List.eq_of_perm_of_sorted
      ((List.perm_insertionSort spGE cs).trans
        (h.trans (List.perm_insertionSort spGE cs').symm))
      (List.sorted_insertionSort spGE cs) (List.sorted_insertionSort spGE cs')
  rw [selectRun_eq_take, selectRun_eq_take, hsort]

theorem C2_witness :
    ([⟨10, "b"⟩, ⟨5, "a"⟩, ⟨10, "a"⟩] : List SizedPath).Perm
        [⟨10, "a"⟩, ⟨10, "b"⟩, ⟨5, "a"⟩] ∧
    drain_sorted (selectRun 2 [⟨10, "b"⟩, ⟨5, "a"⟩, ⟨10, "a"⟩])
      = drain_sorted (selectRun 2 [⟨10, "a"⟩, ⟨10, "b"⟩, ⟨5, "a"⟩]) :=
  ⟨by decide, C2_order_independent 2 _ _ (by decide)⟩

/-- C3: draining any reachable selector state yields a sequence where
every adjacent pair is ordered by size descending, and path ascending
for equal sizes. -/
theorem C3_drain_order (n : Nat) (cs : List SizedPath) :
    List.Chain' (fun a b => b.size < a.size ∨ (a.size = b.size ∧ a.path ≤ b.path))
      (drain_sorted (selectRun n cs)) := by
  have hs : List.Sorted drainLE (drain_sorted (selectRun n cs)) :=
    List.sorted_insertionSort drainLE _
  exact List.Chain'.imp
    (fun a b hab => spGE_iff.mp (drainLE_iff_spGE.mp hab)) hs.chain'

/-- C4: the selector never holds more than `top_n` elements, after any
sequence of `consider` calls starting from the empty state. -/
theorem C4_capacity_bound (n : Nat) (cs : List SizedPath) :
    (selectRun n cs).length ≤ n := by
  rw [selectRun_eq_take, List.length_take]
  exact min_le_left _ _

/-- C10: with capacity `top_n = 0` the under-capacity branch never fires
and peeking the empty heap yields nothing, so every candidate is
discarded and the selector stays empty. -/
theorem C10_zero_capacity (cs : List SizedPath) (c : SizedPath) :
    selectRun 0 cs = [] ∧ consider_candidate [] 0 c = []
      ∧ heapPeekMin ([] : List SizedPath) = none := by
  refine ⟨?_, rfl, rfl⟩
  rw [selectRun_eq_take]
  simp

/-- Split a character list at `/` separators. -/
def splitSlash : List Char → List (List Char)
  | [] => [[]]
  | c :: r =>
    if c = '/' then [] :: splitSlash r
    else
      match splitSlash r with
      | [] => [[c]]
      | p :: ps => (c :: p) :: ps

/-- `Path::file_name` on Unix: the last normal path component.  Empty
components, repeated separators and `.` components are dropped (as by
`Path::components`); a path ending in `..` or having no component at
all (such as the root `/`) has no file name. -/
def file_name (p : String) : Option String :=
  let parts := (splitSlash p.data).filter (fun s => decide (s ≠ [] ∧ s ≠ ['.']))
  match parts.getLast? with
  | none => none
  | some last => if last = ['.', '.'] then none else some (String.mk last)

/-- Characters after the last `.` of a list, if it has a dot. -/
def extAfterLastDot : List Char → Option (List Char)
  | [] => none
  | c :: rest =>
    match extAfterLastDot rest with
    | some e => some e
    | none => if c = '.' then some rest else none

/-- `Path::extension`: the suffix of the file name after its last dot;
none when there is no file name, no dot, or the only dot is the leading
character (hidden files). -/
def extension (p : String) : Option String :=
  match file_name p with
  | none => none
  | some name =>
    match name.data with
    | [] => none
    | _ :: rest => (extAfterLastDot rest).map (fun e => String.mk e)

/-- `u8::to_ascii_lowercase` on a character. -/
def asciiLowerChar (c : Char) : Char :=
  if 'A' ≤ c ∧ c ≤ 'Z' then Char.ofNat (c.toNat + 32) else c

/-- `str::eq_ignore_ascii_case`. -/
def eqIgnoreAsciiCase (a b : String) : Bool :=
  a.data.map asciiLowerChar == b.data.map asciiLowerChar

/-- A compiled regular expression of the external `regex` crate: the
pattern it was compiled from, with an abstract match function. -/
structure CompiledRegex where
  pattern : String
  isMatch : String → Bool

/-- Comparison operators of `size` predicates (main.rs lines 457-464). -/
inductive CmpOp where
  | Lt
  | Lte
  | Gt
  | Gte
  | Eq
deriving DecidableEq, Repr

/-- Atomic predicates (main.rs lines 466-472). -/
inductive Predicate where
  | PathRegex (re : CompiledRegex)
  | NameRegex (re : CompiledRegex)
  | ExtEq (ext : String)
  | SizeCmp (op : CmpOp) (bytes : Nat)

/-- Query AST (main.rs lines 438-444). -/
inductive Expr where
  | And (a b : Expr)
  | Or (a b : Expr)
  | Not (e : Expr)
  | Pred (p : Predicate)

/-- `Predicate::eval` (main.rs lines 474-495). -/
def Predicate.eval : Predicate → String → Nat → Bool
  | .PathRegex re, path, _ => re.isMatch path
  | .NameRegex re, path, _ =>
    match file_name path with
    | some name => re.isMatch name
    | none => false
  | .ExtEq ext, path, _ =>
    match extension path with
    | some e => eqIgnoreAsciiCase e ext
    | none => false
  | .SizeCmp op bytes, _, size =>
    match op with
    | .Lt => decide (size < bytes)
    | .Lte => decide (size ≤ bytes)
    | .Gt => decide (size > bytes)
    | .Gte => decide (size ≥ bytes)
    | .Eq => decide (size = bytes)

/-- `Expr::eval` (main.rs lines 446-455). -/
def Expr.eval : Expr → String → Nat → Bool
  | .And a b, path, size => a.eval path size && b.eval path size
  | .Or a b, path, size => a.eval path size || b.eval path size
  | .Not e, path, size => !(e.eval path size)
  | .Pred p, path, size => p.eval path size

/-- The `Matcher` (main.rs lines 80-85): optional query AST plus
include and exclude regex lists. -/
structure Matcher where
  query : Option Expr
  «include» : List CompiledRegex
  exclude : List CompiledRegex

/-- `Matcher::matches_path_str` (main.rs lines 121-138): exclude gates
include gates query. -/
def Matcher.matches_path_str (m : Matcher) (path : String) (size : Nat) : Bool :=
  if m.exclude.any (fun re => re.isMatch path) then false
  else if !m.«include».isEmpty && !m.«include».any (fun re => re.isMatch path) then
    false
  else
    match m.query with
    | some expr => expr.eval path size
    | none => true

/-- C5: `matches` rejects when any exclude regex matches the full path,
regardless of the include list and query; otherwise rejects when the
include list is non-empty and no include regex matches; otherwise the
query evaluation (when configured) is the result, and `true` when no
query is configured. -/
theorem C5_matcher_gating (m : Matcher) (path : String) (size : Nat) :
    (m.exclude.any (fun re => re.isMatch path) = true →
      m.matches_path_str path size = false) ∧
    (m.exclude.any (fun re => re.isMatch path) = false →
      m.«include» ≠ [] → m.«include».any (fun re => re.isMatch path) = false →
      m.matches_path_str path size = false) ∧
    (m.exclude.any (fun re => re.isMatch path) = false →
      (m.«include» = [] ∨ m.«include».any (fun re => re.isMatch path) = true) →
      (∀ e, m.query = some e → m.matches_path_str path size = e.eval path size) ∧
      (m.query = none → m.matches_path_str path size = true)) := by
  refine ⟨?_, ?_, ?_⟩
  · intro hexc
    simp [Matcher.matches_path_str, hexc]
  · intro hexc hne hinc
    have hie : m.«include».isEmpty = false := by
      cases hli : m.«include» with
      | nil => exact absurd hli hne
      | cons a l => rfl
    simp [Matcher.matches_path_str, hexc, hinc, hie]
  · intro hexc hor
    have hcond :
        (!m.«include».isEmpty && !m.«include».any (fun re => re.isMatch path))
          = false := by
      rcases hor with h | h
      · simp [h]
      · simp [h]
    constructor
    · intro e he
      simp [Matcher.matches_path_str, hexc, hcond, he]
    · intro hq
      simp [Matcher.matches_path_str, hexc, hcond, hq]

theorem C5_witness :
    (Matcher.matches_path_str ⟨none, [], [⟨"a", fun s => s == "/tmp/a"⟩]⟩
      "/tmp/a" 7 = false) ∧
    (Matcher.matches_path_str ⟨none, [⟨"foo", fun s => s == "/foo"⟩], []⟩
      "/tmp/a" 7 = false) ∧
    (Matcher.matches_path_str ⟨some (.Pred (.SizeCmp .Gt 5)), [], []⟩ "/tmp/a" 7
      = Expr.eval (.Pred (.SizeCmp .Gt 5)) "/tmp/a" 7) ∧
    (Matcher.matches_path_str ⟨none, [], []⟩ "/tmp/a" 7 = true) := by
  refine ⟨?_, ?_, ?_, ?_⟩
  · exact (C5_matcher_gating _ _ _).1 rfl
  · exact (C5_matcher_gating _ _ _).2.1 rfl (List.cons_ne_nil _ _) rfl
  · exact ((C5_matcher_gating ⟨some (.Pred (.SizeCmp .Gt 5)), [], []⟩
      "/tmp/a" 7).2.2 rfl (Or.inl rfl)).1 _ rfl
  · exact ((C5_matcher_gating ⟨none, [], []⟩ "/tmp/a" 7).2.2 rfl
      (Or.inl rfl)).2 rfl

/-- C8: `NameRegex` evaluates its regex against only the final path
component and is false when there is no extractable basename (such as
the root path); `ExtEq` compares the extension after the last dot of the
basename case-insensitively and is false when there is no extension;
`SizeCmp` applies its stored operator to the byte size. -/
theorem C8_predicate_eval (re : CompiledRegex) (v path q : String)
    (size bytes : Nat) :
    (file_name path = file_name q →
      Predicate.eval (.NameRegex re) path size
        = Predicate.eval (.NameRegex re) q size) ∧
    (file_name path = none → Predicate.eval (.NameRegex re) path size = false) ∧
    (file_name "/" = none) ∧
    (∀ name, file_name path = some name →
      Predicate.eval (.NameRegex re) path size = re.isMatch name) ∧
    (extension path = none → Predicate.eval (.ExtEq v) path size = false) ∧
    (∀ e, extension path = some e →
      Predicate.eval (.ExtEq v) path size = eqIgnoreAsciiCase e v) ∧
    (Predicate.eval (.SizeCmp .Lt bytes) path size = decide (size < bytes)) ∧
    (Predicate.eval (.SizeCmp .Lte bytes) path size = decide (size ≤ bytes)) ∧
    (Predicate.eval (.SizeCmp .Gt bytes) path size = decide (bytes < size)) ∧
    (Predicate.eval (.SizeCmp .Gte bytes) path size = decide (bytes ≤ size)) ∧
    (Predicate.eval (.SizeCmp .Eq bytes) path size = decide (size = bytes)) := by
  refine ⟨?_, ?_, by decide, ?_, ?_, ?_, rfl, rfl, rfl, rfl, rfl⟩
  · intro h
    simp only [Predicate.eval, h]
  · intro h
    simp only [Predicate.eval, h]
  · intro name h
    simp only [Predicate.eval, h]
  · intro h
    simp only [Predicate.eval, h]
  · intro e h
    simp only [Predicate.eval, h]

theorem C8_witness :
    Predicate.eval (.NameRegex ⟨"x", fun s => s == "movie.mp4"⟩)
      "/tmp/movie.mp4" 0 = true ∧
    Predicate.eval (.NameRegex ⟨"x", fun _ => true⟩) "/" 0 = false ∧
    Predicate.eval (.ExtEq "mp4") "/tmp/a.MP4" 0
      = eqIgnoreAsciiCase "MP4" "mp4" ∧
    eqIgnoreAsciiCase "MP4" "mp4" = true ∧
    Predicate.eval (.ExtEq "mp4") "/tmp/Makefile" 0 = false := by
  refine ⟨?_, ?_, ?_, by decide, ?_⟩
  · rw [(C8_predicate_eval ⟨"x", fun s => s == "movie.mp4"⟩ "v" "/tmp/movie.mp4"
      "q" 0 0).2.2.2.1 "movie.mp4" (by decide)]
    rfl
  · exact (C8_predicate_eval ⟨"x", fun _ => true⟩ "v" "/" "q" 0 0).2.1 (by decide)
  · exact (C8_predicate_eval ⟨"x", fun _ => true⟩ "mp4" "/tmp/a.MP4" "q" 0
      0).2.2.2.2.2.1 "MP4" (by decide)
  · exact (C8_predicate_eval ⟨"x", fun _ => true⟩ "mp4" "/tmp/Makefile" "q" 0
      0).2.2.2.2.1 (by decide)

/-- `str::trim_start` on the character list (`char::is_whitespace`;
over the ASCII range this is `Char.isWhitespace`). -/
def trimLeftChars (cs : List Char) : List Char :=
  cs.dropWhile Char.isWhitespace

/-- `str::trim_end` on the character list. -/
def trimRightChars (cs : List Char) : List Char :=
  (cs.reverse.dropWhile Char.isWhitespace).reverse

/-- `str::trim` on the character list. -/
def trimChars (cs : List Char) : List Char :=
  trimLeftChars (trimRightChars cs)

/-- Value of a run of ASCII digits (`str::parse::<u64>` on the digit
run, before the range check). -/
def digitsToNat (ds : List Char) : Nat :=
  ds.foldl (fun n c => n * 10 + (c.toNat - 48)) 0

/-- The `SizeLiteralError` conditions of `parse_size_bytes`:
empty input, no leading digits, digit run exceeding `u64`, unknown unit
suffix, multiplication overflow. -/
inductive SizeErr where
  | empty
  | noDigits
  | intParse
  | unknownUnit (unit : String)
  | overflow
deriving DecidableEq, Repr

/-- Unit multiplier table of `parse_size_bytes` (main.rs lines 761-768). -/
def multOfUnit : String → Option Nat
  | "" => some 1
  | "b" => some 1
  | "k" => some 1024
  | "kb" => some 1024
  | "kib" => some 1024
  | "m" => some (1024 ^ 2)
  | "mb" => some (1024 ^ 2)
  | "mib" => some (1024 ^ 2)
  | "g" => some (1024 ^ 3)
  | "gb" => some (1024 ^ 3)
  | "gib" => some (1024 ^ 3)
  | "t" => some (1024 ^ 4)
  | "tb" => some (1024 ^ 4)
  | "tib" => some (1024 ^ 4)
  | _ => none

/-- Core of `parse_size_bytes` (main.rs lines 740-771) on the character
list of the input: trim, scan leading ASCII digits, parse them as `u64`
(a run whose value exceeds `u64::MAX` is a parse error), look up the
trimmed lowercased suffix, and multiply with an overflow check. -/
def parse_size_chars (cs : List Char) : Except SizeErr Nat :=
  let t := trimChars cs
  if t = [] then .error .empty
  else
    let digits := t.takeWhile Char.isDigit
    if digits = [] then .error .noDigits
    else
      let num := digitsToNat digits
      if 2 ^ 64 ≤ num then .error .intParse
      else
        let unit := String.mk ((trimChars (t.drop digits.length)).map asciiLowerChar)
        match multOfUnit unit with
        | none => .error (.unknownUnit unit)
        | some mul =>
          if 2 ^ 64 ≤ num * mul then .error .overflow
          else .ok (num * mul)

/-- `parse_size_bytes` (main.rs lines 740-771). -/
def parse_size_bytes (s : String) : Except SizeErr Nat :=
  parse_size_chars s.data

theorem digit_not_ws {c : Char} (h : c.isDigit = true) :
    c.isWhitespace = false := by
  unfold Char.isDigit at h
  simp at h
  unfold Char.isWhitespace
  simp
  refine ⟨⟨⟨?_, ?_⟩, ?_⟩, ?_⟩ <;> rintro rfl <;> exact absurd h.1 (by decide)

theorem trimRightChars_of_no_ws {l : List Char}
    (h : ∀ c ∈ l, c.isWhitespace = false) : trimRightChars l = l := by
  unfold trimRightChars
  cases hrev : l.reverse with
  | nil => rw [List.dropWhile_nil, ← hrev, List.reverse_reverse]
  | cons c r =>
    have hc : c ∈ l := by
      rw [← List.mem_reverse, hrev]
      exact List.mem_cons_self c r
    rw [List.dropWhile_cons, h c hc]
    simp only [Bool.false_eq_true, if_false]
    rw [← hrev, List.reverse_reverse]

theorem trimLeftChars_of_no_ws {l : List Char}
    (h : ∀ c ∈ l, c.isWhitespace = false) : trimLeftChars l = l := by
  unfold trimLeftChars
  cases l with
  | nil => rfl
  | cons c r =>
    rw [List.dropWhile_cons, h c (List.mem_cons_self c r)]
    simp

theorem trimChars_of_no_ws {l : List Char}
    (h : ∀ c ∈ l, c.isWhitespace = false) : trimChars l = l := by
  unfold trimChars
  rw [trimRightChars_of_no_ws h, trimLeftChars_of_no_ws h]

theorem takeWhile_digits_append :
    ∀ (ds : List Char), (∀ c ∈ ds, c.isDigit = true) →
    ∀ (u : List Char), (∀ c, u.head? = some c → c.isDigit = false) →
    (ds ++ u).takeWhile Char.isDigit = ds := by
  intro ds
  induction ds with
  | nil =>
    intro _ u hhd
    rw [List.nil_append]
    cases u with
    | nil => rfl
    | cons c r =>
      rw [List.takeWhile_cons, hhd c rfl]
      simp
  | cons d ds IH =>
    intro hds u hhd
    rw [List.cons_append, List.takeWhile_cons, hds d (List.mem_cons_self d ds)]
    simp only [if_true]
    rw [IH (fun c hc => hds c (List.mem_cons_of_mem d hc)) u hhd]

/-- Reduction of the size-literal parser on a digit run followed by a
whitespace-free unit suffix. -/
theorem parse_size_chars_clean (ds u : List Char)
    (hne : ds ≠ []) (hds : ∀ c ∈ ds, c.isDigit = true)
    (hu : ∀ c ∈ u, c.isWhitespace = false)
    (hhd : ∀ c, u.head? = some c → c.isDigit = false)
    (hnum : digitsToNat ds < 2 ^ 64) :
    parse_size_chars (ds ++ u)
      = match multOfUnit (String.mk (u.map asciiLowerChar)) with
        | none => .error (.unknownUnit (String.mk (u.map asciiLowerChar)))
        | some mul =>
          if 2 ^ 64 ≤ digitsToNat ds * mul then .error .overflow
          else .ok (digitsToNat ds * mul) := by
  have hnows : ∀ c ∈ ds ++ u, c.isWhitespace = false := by
    intro c hc
    rcases List.mem_append.mp hc with h | h
    · exact digit_not_ws (hds c h)
    · exact hu c h
  simp only [parse_size_chars]
  rw [trimChars_of_no_ws hnows, takeWhile_digits_append ds hds u hhd]
  have h1 : ds ++ u ≠ [] := by
    intro he
    exact hne (List.append_eq_nil.mp he).1
  rw [if_neg h1, if_neg hne, if_neg (not_le_of_lt hnum), List.drop_left,
    trimChars_of_no_ws hu]

/-- C7: a size literal parses to the leading decimal digits as a `u64`
times the case-insensitive unit multiplier (empty or `b` = 1, `k`/`kb`/
`kib` = 1024, `m`/`mb`/`mib` = 1024^2, `g`/`gb`/`gib` = 1024^3,
`t`/`tb`/`tib` = 1024^4); `"1GB"` is 1073741824, `"500"` is 500,
`"2KiB"` is 2048; multiplication overflow is an error rather than a
wrapped value; and empty input, a non-digit leading character and an
unrecognized suffix are each errors. -/
theorem C7_size_literal :
    (∀ (ds u : List Char) (mul : Nat),
      ds ≠ [] → (∀ c ∈ ds, c.isDigit = true) →
      (∀ c ∈ u, c.isWhitespace = false) →
      (∀ c, u.head? = some c → c.isDigit = false) →
      digitsToNat ds < 2 ^ 64 →
      multOfUnit (String.mk (u.map asciiLowerChar)) = some mul →
      (digitsToNat ds * mul < 2 ^ 64 →
        parse_size_bytes (String.mk (ds ++ u)) = .ok (digitsToNat ds * mul)) ∧
      (2 ^ 64 ≤ digitsToNat ds * mul →
        parse_size_bytes (String.mk (ds ++ u)) = .error .overflow)) ∧
    (multOfUnit "" = some 1 ∧ multOfUnit "b" = some 1 ∧
      multOfUnit "k" = some 1024 ∧ multOfUnit "kb" = some 1024 ∧
      multOfUnit "kib" = some 1024 ∧ multOfUnit "m" = some (1024 ^ 2) ∧
      multOfUnit "mb" = some (1024 ^ 2) ∧ multOfUnit "mib" = some (1024 ^ 2) ∧
      multOfUnit "g" = some (1024 ^ 3) ∧ multOfUnit "gb" = some (1024 ^ 3) ∧
      multOfUnit "gib" = some (1024 ^ 3) ∧ multOfUnit "t" = some (1024 ^ 4) ∧
      multOfUnit "tb" = some (1024 ^ 4) ∧ multOfUnit "tib" = some (1024 ^ 4)) ∧
    parse_size_bytes "1GB" = .ok 1073741824 ∧
    parse_size_bytes "500" = .ok 500 ∧
    parse_size_bytes "2KiB" = .ok 2048 ∧
    parse_size_bytes "5xb" = .error (.unknownUnit "xb") ∧
    parse_size_bytes "" = .error .empty ∧
    (∀ (s : String) (c : Char) (cs : List Char),
      trimChars s.data = c :: cs → c.isDigit = false →
      parse_size_bytes s = .error .noDigits) ∧
    parse_size_bytes "18446744073709551615t" = .error .overflow := by
  refine ⟨?_, by decide, rfl, rfl, rfl, rfl, rfl, ?_, rfl⟩
  · intro ds u mul hne hds hu hhd hnum hmul
    have hred := parse_size_chars_clean ds u hne hds hu hhd hnum
    rw [hmul] at hred
    have hred2 : parse_size_chars (ds ++ u)
        = if 2 ^ 64 ≤ digitsToNat ds * mul then Except.error SizeErr.overflow
          else Except.ok (digitsToNat ds * mul) := hred
    constructor
    · intro hlt
      show parse_size_chars (ds ++ u) = _
      rw [hred2, if_neg (not_le_of_lt hlt)]
    · intro hge
      show parse_size_chars (ds ++ u) = _
      rw [hred2, if_pos hge]
  · intro s c cs ht hc
    show parse_size_chars s.data = _
    simp only [parse_size_chars]
    rw [ht]
    simp [List.takeWhile_cons, hc]

theorem C7_witness :
    parse_size_bytes (String.mk (['2'] ++ ['K', 'i', 'B'])) = .ok 2048 ∧
    parse_size_bytes "x1" = .error .noDigits := by
  constructor
  · exact ((C7_size_literal).1 ['2'] ['K', 'i', 'B'] 1024 (by decide) (by decide)
      (by decide) (by decide) (by decide) (by decide)).1 (by decide)
  · exact (C7_size_literal).2.2.2.2.2.2.2.1 "x1" 'x' ['1'] (by decide) (by decide)

/-- Cursor state of `ParserExpr` (main.rs lines 497-500).  The Rust
parser keeps the whole string and a byte index `i` and only ever reads
the suffix `s[i..]`, so the state is the remaining characters together
with the number of bytes consumed. -/
structure PSt where
  rest : List Char
  pos : Nat
deriving DecidableEq, Repr

/-- Byte length of a character list (`str::len` of the suffix). -/
def utf8Len (cs : List Char) : Nat :=
  (cs.map Char.utf8Size).sum

/-- The `ParseError` conditions (spec section 7), one constructor per
`bail!` site of the parser, carrying the byte offset where the Rust
message reports one.  `fuel` is an artifact of the embedding: the
recursion of the recursive-descent parser is bounded by a fuel counter,
and the top-level entry point supplies more fuel than any input can
consume, since every descent chain of the grammar consumes input. -/
inductive ParseErr where
  | trailing (pos : Nat)
  | expectedRparen (pos : Nat)
  | expectedPred (pos : Nat)
  | expectedCmpOp (pos : Nat)
  | expectedRegexSlash (pos : Nat)
  | badRegex (pattern : String)
  | unterminatedEscape
  | unterminatedRegex
  | expectedChar (c : Char) (pos : Nat)
  | extEmpty
  | sizeLit (val : String) (e : SizeErr)
  | fuel
deriving DecidableEq, Repr

/-- Recursion core of `ParserExpr::skip_ws` (main.rs lines 696-704). -/
def skip_ws_chars : List Char → Nat → List Char × Nat
  | [], pos => ([], pos)
  | c :: r, pos =>
    if c.isWhitespace then skip_ws_chars r (pos + c.utf8Size) else (c :: r, pos)

/-- `ParserExpr::skip_ws`. -/
def skip_ws (st : PSt) : PSt :=
  ⟨(skip_ws_chars st.rest st.pos).1, (skip_ws_chars st.rest st.pos).2⟩

/-- `ParserExpr::peek_char` (main.rs lines 706-708). -/
def peek_char (st : PSt) : Option Char :=
  st.rest.head?

/-- `ParserExpr::consume_op` (main.rs lines 710-717): match a literal
operator at the cursor, advancing by its byte length. -/
def consume_op (op : String) (st : PSt) : Bool × PSt :=
  if op.data.isPrefixOf st.rest then
    (true, ⟨st.rest.drop op.data.length, st.pos + utf8Len op.data⟩)
  else (false, st)

/-- `ParserExpr::consume_kw` (main.rs lines 719-737): after skipping
whitespace, take the maximal alphanumeric-or-underscore run and compare
it in full, ASCII-case-insensitively, against the keyword.  (Rust's
`char::is_alphanumeric` is Unicode-aware; over ASCII query strings it
agrees with `Char.isAlphanum`.) -/
def consume_kw (kw : String) (st : PSt) : Bool × PSt :=
  let st1 := skip_ws st
  let taken := st1.rest.takeWhile (fun c => c.isAlphanum || c == '_')
  if eqIgnoreAsciiCase (String.mk taken) kw then
    (true, ⟨st1.rest.drop taken.length, st1.pos + utf8Len taken⟩)
  else (false, st1)

/-- `ParserExpr::expect_char` (main.rs lines 686-694). -/
def expect_char (c : Char) (st : PSt) : Except ParseErr PSt :=
  let st1 := skip_ws st
  if st1.rest.head? = some c then .ok ⟨st1.rest.tail, st1.pos + c.utf8Size⟩
  else .error (.expectedChar c st1.pos)

/-- `ParserExpr::parse_bare_value` (main.rs lines 674-684): the maximal
run of characters that are not whitespace and not parentheses. -/
def parse_bare_value (st : PSt) : String × PSt :=
  let st1 := skip_ws st
  let v := st1.rest.takeWhile (fun c => !c.isWhitespace && c != ')' && c != '(')
  (String.mk v, ⟨st1.rest.drop v.length, st1.pos + utf8Len v⟩)

/-- `ParserExpr::parse_cmp_op` (main.rs lines 607-625): two-character
operators are tried before one-character ones. -/
def parse_cmp_op (st : PSt) : Except ParseErr (CmpOp × PSt) :=
  let st1 := skip_ws st
  match consume_op ">=" st1 with
  | (true, st2) => .ok (.Gte, st2)
  | (false, st2) =>
    match consume_op "<=" st2 with
    | (true, st3) => .ok (.Lte, st3)
    | (false, st3) =>
      match consume_op ">" st3 with
      | (true, st4) => .ok (.Gt, st4)
      | (false, st4) =>
        match consume_op "<" st4 with
        | (true, st5) => .ok (.Lt, st5)
        | (false, st5) =>
          match consume_op "=" st5 with
          | (true, st6) => .ok (.Eq, st6)
          | (false, st6) => .error (.expectedCmpOp st6.pos)

/-- Does a regex-literal body contain a closing unescaped `/`? -/
def hasCloseSlash : List Char → Bool
  | [] => false
  | '/' :: _ => true
  | ['\\'] => false
  | '\\' :: _ :: r => hasCloseSlash r
  | _ :: r => hasCloseSlash r

/-- Scanning loop of `parse_regex_literal` (main.rs lines 637-671):
an unescaped `/` closes the literal and the collected pattern is handed
to the regex compiler; a backslash before `/` emits a literal `/`; a
backslash before any other character is preserved verbatim together
with that character; end of input is an unterminated-literal (or, mid
escape, unterminated-escape) error. -/
def regex_lit_loop (compile : String → Except String CompiledRegex) :
    String → List Char → Nat → Except ParseErr (CompiledRegex × PSt)
  | _, [], _ => .error .unterminatedRegex
  | pat, '/' :: r, pos =>
    match compile pat with
    | .ok re => .ok (re, ⟨r, pos + 1⟩)
    | .error _ => .error (.badRegex pat)
  | _, ['\\'], _ => .error .unterminatedEscape
  | pat, '\\' :: next :: r2, pos =>
    if next = '/' then
      regex_lit_loop compile (pat.push '/') r2 (pos + 1 + next.utf8Size)
    else
      regex_lit_loop compile ((pat.push '\\').push next) r2
        (pos + 1 + next.utf8Size)
  | pat, c :: r, pos =>
    regex_lit_loop compile (pat.push c) r (pos + c.utf8Size)

/-- `ParserExpr::parse_regex_literal` entry (main.rs lines 627-635). -/
def parse_regex_literal (compile : String → Except String CompiledRegex)
    (st : PSt) : Except ParseErr (CompiledRegex × PSt) :=
  let st1 := skip_ws st
  match st1.rest with
  | '/' :: r => regex_lit_loop compile "" r (st1.pos + 1)
  | _ => .error (.expectedRegexSlash st1.pos)

/-- `ParserExpr::parse_predicate` (main.rs lines 568-605). -/
def parse_predicate (compile : String → Except String CompiledRegex)
    (st : PSt) : Except ParseErr (Predicate × PSt) :=
  let st1 := skip_ws st
  if st1.rest.head? = some '/' then
    match parse_regex_literal compile st1 with
    | .ok (re, st2) => .ok (.PathRegex re, st2)
    | .error e => .error e
  else
    match consume_kw "name" st1 with
    | (true, st2) =>
      match expect_char ':' st2 with
      | .error e => .error e
      | .ok st3 =>
        match parse_regex_literal compile st3 with
        | .ok (re, st4) => .ok (.NameRegex re, st4)
        | .error e => .error e
    | (false, st2) =>
      match consume_kw "path" st2 with
      | (true, st3) =>
        match expect_char ':' st3 with
        | .error e => .error e
        | .ok st4 =>
          match parse_regex_literal compile st4 with
          | .ok (re, st5) => .ok (.PathRegex re, st5)
          | .error e => .error e
      | (false, st3) =>
        match consume_kw "ext" st3 with
        | (true, st4) =>
          match expect_char ':' st4 with
          | .error e => .error e
          | .ok st5 =>
            match parse_bare_value st5 with
            | (val, st6) =>
              if val = "" then .error .extEmpty
              else .ok (.ExtEq val, st6)
        | (false, st4) =>
          match consume_kw "size" st4 with
          | (true, st5) =>
            match parse_cmp_op st5 with
            | .error e => .error e
            | .ok (op, st6) =>
              match parse_bare_value st6 with
              | (val, st7) =>
                match parse_size_bytes val with
                | .error e => .error (.sizeLit val e)
                | .ok bytes => .ok (.SizeCmp op bytes, st7)
          | (false, st5) => .error (.expectedPred st5.pos)

/-- The grammar level being parsed: the Rust methods `parse_or`,
`parse_and`, `parse_unary`, `parse_primary` and the two `loop` bodies
inside `parse_or`/`parse_and` (main.rs lines 516-566).  They are merged
into one fuel-indexed dispatcher so the embedding is structurally
recursive. -/
inductive PCall where
  | orLevel
  | orLoop (left : Expr)
  | andLevel
  | andLoop (left : Expr)
  | unary
  | primary

/-- One fueled dispatcher for the mutually recursive expression grammar
(main.rs lines 516-566): `NOT`/`!` binds tighter than `AND`/`&&` binds
tighter than `OR`/`||`, with parenthesized subexpressions restarting at
the `OR` level, and the binary levels looping while their operator (the
symbolic form or the case-insensitive keyword) is consumed. -/
def parse_step (compile : String → Except String CompiledRegex) :
    Nat → PCall → PSt → Except ParseErr (Expr × PSt)
  | 0, _, _ => .error .fuel
  | fuel + 1, call, st =>
    match call with
    | .orLevel =>
      match parse_step compile fuel .andLevel st with
      | .error e => .error e
      | .ok (left, st1) => parse_step compile fuel (.orLoop left) st1
    | .orLoop left =>
      let st1 := skip_ws st
      match consume_op "||" st1 with
      | (true, st2) =>
        match parse_step compile fuel .andLevel st2 with
        | .error e => .error e
        | .ok (right, st3) => parse_step compile fuel (.orLoop (.Or left right)) st3
      | (false, st2) =>
        match consume_kw "OR" st2 with
        | (true, st3) =>
          match parse_step compile fuel .andLevel st3 with
          | .error e => .error e
          | .ok (right, st4) =>
            parse_step compile fuel (.orLoop (.Or left right)) st4
        | (false, st3) => .ok (left, st3)
    | .andLevel =>
      match parse_step compile fuel .unary st with
      | .error e => .error e
      | .ok (left, st1) => parse_step compile fuel (.andLoop left) st1
    | .andLoop left =>
      let st1 := skip_ws st
      match consume_op "&&" st1 with
      | (true, st2) =>
        match parse_step compile fuel .unary st2 with
        | .error e => .error e
        | .ok (right, st3) =>
          parse_step compile fuel (.andLoop (.And left right)) st3
      | (false, st2) =>
        match consume_kw "AND" st2 with
        | (true, st3) =>
          match parse_step compile fuel .unary st3 with
          | .error e => .error e
          | .ok (right, st4) =>
            parse_step compile fuel (.andLoop (.And left right)) st4
        | (false, st3) => .ok (left, st3)
    | .unary =>
      let st1 := skip_ws st
      match consume_op "!" st1 with
      | (true, st2) =>
        match parse_step compile fuel .unary st2 with
        | .error e => .error e
        | .ok (inner, st3) => .ok (.Not inner, st3)
      | (false, st2) =>
        match consume_kw "NOT" st2 with
        | (true, st3) =>
          match parse_step compile fuel .unary st3 with
          | .error e => .error e
          | .ok (inner, st4) => .ok (.Not inner, st4)
        | (false, st3) => parse_step compile fuel .primary st3
    | .primary =>
      let st1 := skip_ws st
      match consume_op "(" st1 with
      | (true, st2) =>
        match parse_step compile fuel .orLevel st2 with
        | .error e => .error e
        | .ok (inner, st3) =>
          let st4 := skip_ws st3
          match consume_op ")" st4 with
          | (true, st5) => .ok (inner, st5)
          | (false, st5) => .error (.expectedRparen st5.pos)
      | (false, st2) =>
        match parse_predicate compile st2 with
        | .error e => .error e
        | .ok (p, st3) => .ok (.Pred p, st3)

/-- `ParserExpr::parse_or`. -/
def parse_or (compile : String → Except String CompiledRegex)
    (fuel : Nat) (st : PSt) : Except ParseErr (Expr × PSt) :=
  parse_step compile fuel .orLevel st

/-- Fuel supplied by the top-level parse: every chain of grammar
descents (at most four levels, plus one per consumed `!`, `(`, or
keyword character) consumes input, so this bound is never reached. -/
def parseFuel (s : String) : Nat :=
  8 * (s.data.length + 2)

/-- `ParserExpr::parse` (main.rs lines 507-514): parse a whole `OR`
level expression, skip trailing whitespace, and fail on any unconsumed
input, reporting its byte offset. -/
def ParserExpr.parse (compile : String → Except String CompiledRegex)
    (s : String) : Except ParseErr Expr :=
  match parse_or compile (parseFuel s) ⟨s.data, 0⟩ with
  | .error e => .error e
  | .ok (expr, st1) =>
    let st2 := skip_ws st1
    if st2.rest = [] then .ok expr else .error (.trailing st2.pos)

theorem regex_lit_loop_unterminated
    (compile : String → Except String CompiledRegex) :
    ∀ (n : Nat) (rest : List Char), rest.length ≤ n →
    hasCloseSlash rest = false → ∀ (pat : String) (pos : Nat),
    ∃ err, regex_lit_loop compile pat rest pos = .error err := by
  intro n
  induction n with
  | zero =>
    intro rest hlen _ pat pos
    have hr : rest = [] := List.eq_nil_of_length_eq_zero (by omega)
    subst hr
    exact ⟨.unterminatedRegex, rfl⟩
  | succ n IH =>
    intro rest hlen hcl pat pos
    cases rest with
    | nil => exact ⟨.unterminatedRegex, rfl⟩
    | cons c r =>
      by_cases h1 : c = '/'
      · subst h1
        exact absurd hcl (by simp [hasCloseSlash])
      · by_cases h2 : c = '\\'
        · subst h2
          cases r with
          | nil => exact ⟨.unterminatedEscape, rfl⟩
          | cons next r2 =>
            have hcl2 : hasCloseSlash r2 = false := by
              simpa [hasCloseSlash] using hcl
            have hlen2 : r2.length ≤ n := by
              simp at hlen
              omega
            by_cases h3 : next = '/'
            · subst h3
              obtain ⟨err, he⟩ :=
                IH r2 hlen2 hcl2 (pat.push '/') (pos + 1 + 1)
              exact ⟨err, he⟩
            · obtain ⟨err, he⟩ := IH r2 hlen2 hcl2 ((pat.push '\\').push next)
                (pos + 1 + next.utf8Size)
              refine ⟨err, ?_⟩
              rw [show regex_lit_loop compile pat ('\\' :: next :: r2) pos
                  = regex_lit_loop compile ((pat.push '\\').push next) r2
                    (pos + 1 + next.utf8Size) from by
                simp [regex_lit_loop, h3]]
              exact he
        · have hcl2 : hasCloseSlash r = false := by
            rw [show hasCloseSlash (c :: r) = hasCloseSlash r from by
              simp [hasCloseSlash, h1, h2]] at hcl
            exact hcl
          have hlen2 : r.length ≤ n := by
            simp at hlen
            omega
          obtain ⟨err, he⟩ := IH r hlen2 hcl2 (pat.push c) (pos + c.utf8Size)
          refine ⟨err, ?_⟩
          rw [show regex_lit_loop compile pat (c :: r) pos
              = regex_lit_loop compile (pat.push c) r (pos + c.utf8Size) from by
            simp [regex_lit_loop, h1, h2]]
          exact he

/-- C6: in the regex-literal scanner, a backslash before `/` contributes
a single literal `/` to the collected pattern; a backslash before any
other character contributes the backslash and that character verbatim;
an unescaped `/` terminates the literal and hands the collected pattern
to the regex compiler; reaching end of input before an unescaped
closing `/` yields an error, not a compiled regex. -/
theorem C6_regex_literal (compile : String → Except String CompiledRegex)
    (pat : String) (pos : Nat) (rest : List Char) (c : Char) :
    (regex_lit_loop compile pat ('\\' :: '/' :: rest) pos
      = regex_lit_loop compile (pat.push '/') rest (pos + 2)) ∧
    (c ≠ '/' → regex_lit_loop compile pat ('\\' :: c :: rest) pos
      = regex_lit_loop compile ((pat.push '\\').push c) rest
          (pos + 1 + c.utf8Size)) ∧
    (regex_lit_loop compile pat ('/' :: rest) pos
      = match compile pat with
        | .ok re => .ok (re, ⟨rest, pos + 1⟩)
        | .error _ => .error (.badRegex pat)) ∧
    (hasCloseSlash rest = false →
      ∃ err, regex_lit_loop compile pat rest pos = .error err) := by
  refine ⟨rfl, ?_, rfl, ?_⟩
  · intro hc
    simp [regex_lit_loop, hc]
  · intro hcl
    exact regex_lit_loop_unterminated compile rest.length rest le_rfl hcl pat pos

theorem C6_witness :
    (regex_lit_loop (fun p => .ok ⟨p, fun _ => false⟩) "x"
      ('\\' :: 'd' :: ['/']) 0
      = regex_lit_loop (fun p => .ok ⟨p, fun _ => false⟩)
          (("x".push '\\').push 'd') ['/'] (0 + 1 + 'd'.utf8Size)) ∧
    (∃ err, regex_lit_loop (fun p => .ok ⟨p, fun _ => false⟩) ""
      ['a', 'b'] 0 = .error err) :=
  ⟨(C6_regex_literal (fun p => .ok ⟨p, fun _ => false⟩) "x" 0 ['/'] 'd').2.1
      (by decide),
   (C6_regex_literal (fun p => .ok ⟨p, fun _ => false⟩) "" 0 ['a', 'b']
      'z').2.2.2 (by decide)⟩

/-- C9: the query parser succeeds only when the whole input is consumed
— remaining non-whitespace input after the top-level expression yields a
trailing-input error carrying its byte offset, and `"size>1GB)"` fails
that way at byte 8; the keywords are matched case-insensitively only as
complete alphanumeric-or-underscore tokens, so `consume_kw` fails
(without consuming) whenever the whole identifier run at the cursor
differs case-insensitively from the keyword, and `ANDROID` is never
consumed as `AND`. -/
theorem C9_whole_input_keywords (compile : String → Except String CompiledRegex)
    (s : String) (kw : String) (st : PSt) :
    (∀ e st1, parse_or compile (parseFuel s) ⟨s.data, 0⟩ = .ok (e, st1) →
      (skip_ws st1).rest ≠ [] →
      ParserExpr.parse compile s = .error (.trailing (skip_ws st1).pos)) ∧
    (∀ e, ParserExpr.parse compile s = .ok e →
      ∀ e1 st1, parse_or compile (parseFuel s) ⟨s.data, 0⟩ = .ok (e1, st1) →
        (skip_ws st1).rest = []) ∧
    (ParserExpr.parse compile "size>1GB)" = .error (.trailing 8)) ∧
    (¬ eqIgnoreAsciiCase
        (String.mk ((skip_ws st).rest.takeWhile
          (fun c => c.isAlphanum || c == '_'))) kw = true →
      consume_kw kw st = (false, skip_ws st)) ∧
    (eqIgnoreAsciiCase
        (String.mk ((skip_ws st).rest.takeWhile
          (fun c => c.isAlphanum || c == '_'))) kw = true →
      (consume_kw kw st).1 = true) ∧
    (consume_kw "AND" ⟨"ANDROID".data, 0⟩ = (false, ⟨"ANDROID".data, 0⟩)) ∧
    ((consume_kw "AND" ⟨"and more".data, 0⟩).1 = true) := by
  refine ⟨?_, ?_, rfl, ?_, ?_, by decide, by decide⟩
  · intro e st1 hor hne
    unfold ParserExpr.parse
    rw [hor]
    simp [hne]
  · intro e hok e1 st1 hor
    unfold ParserExpr.parse at hok
    rw [hor] at hok
    by_contra hne
    simp [hne] at hok
  · intro h
    simp [consume_kw, h]
  · intro h
    simp [consume_kw, h]

theorem C9_witness :
    ParserExpr.parse (fun p => .ok ⟨p, fun _ => false⟩) "size>1GB)"
      = .error (.trailing (skip_ws ⟨[')'], 8⟩).pos) ∧
    consume_kw "AND" ⟨"ANDROID".data, 0⟩
      = (false, skip_ws ⟨"ANDROID".data, 0⟩) := by
  constructor
  · exact (C9_whole_input_keywords (fun p => .ok ⟨p, fun _ => false⟩)
      "size>1GB)" "AND" ⟨[], 0⟩).1 (.Pred (.SizeCmp .Gt 1073741824))
      ⟨[')'], 8⟩ rfl (by decide)
  · exact (C9_whole_input_keywords (fun p => .ok ⟨p, fun _ => false⟩)
      "size>1GB)" "AND" ⟨"ANDROID".data, 0⟩).2.2.2.1 (by decide)
